import Mathlib

set_option linter.unusedSectionVars false

/-!
# Verification of the arbtree persistent red-black map

Shallow embedding of the repository's `src/lib.rs` (a persistent red-black
tree map) and proofs about its operations.  The `Arc`-based sharing of the
Rust code is erased: `Link::Node(Arc<Node<K,V>>)` with its five-field `Node`
record is flattened into a five-argument `node` constructor.  The trait
bound `K : Ord` is modelled by `[LinearOrder α]`, with Rust's three-way
`Ord::cmp` embedded as `cmp3`.
-/

namespace Arbtree

variable {α β : Type} [LinearOrder α]

/-- Mirrors the Rust `enum Color { Red, Black, DoubleBlack }`. -/
inductive Color : Type
  | Red : Color
  | Black : Color
  | DoubleBlack : Color
  deriving DecidableEq

/-- Mirrors `enum Link<K, V> { Empty, Node(Arc<Node<K, V>>) }` with the
`Node { key, value, left, right, color }` record flattened into the
constructor. -/
inductive Link (α β : Type) : Type
  | Empty : Link α β
  | node (key : α) (value : β) (left : Link α β) (right : Link α β)
      (color : Color) : Link α β
  deriving DecidableEq

/-- Rust's three-way comparison `key.cmp(&other)` for an `Ord` key type. -/
def cmp3 (x y : α) : Ordering :=
  if x < y then .lt else if y < x then .gt else .eq

/-- `Color::is_red` (`self == Color::Red`). -/
def Color.is_red : Color → Bool
  | .Red => true
  | _ => false

/-- `Color::is_black` (`self == Color::Black`). -/
def Color.is_black : Color → Bool
  | .Black => true
  | _ => false

/-- `Color::is_double_black` (`self == Color::DoubleBlack`). -/
def Color.is_double_black : Color → Bool
  | .DoubleBlack => true
  | _ => false

/-- A node record, as carried by `Arc<Node<K, V>>` references (used by
`get_if_red`, `get_if_black`, `to_option` and the iterator stack). -/
structure Frame (α β : Type) : Type where
  key : α
  value : β
  left : Link α β
  right : Link α β
  color : Color
  deriving DecidableEq

/-- `Link::get_if_red`: the node behind the link when its color is Red. -/
def Link.get_if_red : Link α β → Option (Frame α β)
  | .node k v l r .Red => some ⟨k, v, l, r, .Red⟩
  | _ => none

/-- `Link::get_if_black`: the node behind the link when its color is Black. -/
def Link.get_if_black : Link α β → Option (Frame α β)
  | .node k v l r .Black => some ⟨k, v, l, r, .Black⟩
  | _ => none

/-- `Link::is_empty_or_double_black`. -/
def Link.is_empty_or_double_black : Link α β → Bool
  | .Empty => true
  | .node _ _ _ _ c => c.is_double_black

/-- `Link::to_option`: `None` for `Empty`, the node for `Node`. -/
def Link.to_option : Link α β → Option (Frame α β)
  | .Empty => none
  | .node k v l r c => some ⟨k, v, l, r, c⟩

/-- `Link::double_black_to_black`: recolor a (DoubleBlack) node to Black;
`Empty` stays `Empty`. -/
def Link.double_black_to_black : Link α β → Link α β
  | .Empty => .Empty
  | .node k v l r _ => .node k v l r .Black

/-- `Link::rearrangement`: rebuild a 3-node, 4-subtree configuration with
the given parent on top and two Black children. -/
def Link.rearrangement (color : Color) (parent_key : α) (parent_value : β)
    (left_key : α) (left_value : β) (left_left left_right : Link α β)
    (right_key : α) (right_value : β) (right_left right_right : Link α β) :
    Link α β :=
  .node parent_key parent_value
    (.node left_key left_value left_left left_right .Black)
    (.node right_key right_value right_left right_right .Black)
    color

/-- The right-child half of the Black case of `Color::balance`
(lines 237-264 of `lib.rs`): a Red right child with a Red grandchild. -/
def Color.balanceBlackRight (key : α) (value : β) (left right : Link α β) :
    Option (Link α β) :=
  match right.get_if_red with
  | some rf =>
    match rf.left.get_if_red with
    | some rlf =>
      some (Link.rearrangement .Red rlf.key rlf.value key value left
        rlf.left rf.key rf.value rlf.right rf.right)
    | none =>
      match rf.right.get_if_red with
      | some rrf =>
        some (Link.rearrangement .Red rf.key rf.value key value left
          rf.left rrf.key rrf.value rrf.left rrf.right)
      | none => none
  | none => none

/-- The Black case of `Color::balance` (lines 208-265 of `lib.rs`): the four
red-red danger shapes, checked left child first. -/
def Color.balanceBlack (key : α) (value : β) (left right : Link α β) :
    Option (Link α β) :=
  match left.get_if_red with
  | some lf =>
    match lf.left.get_if_red with
    | some llf =>
      some (Link.rearrangement .Red lf.key lf.value llf.key llf.value
        llf.left llf.right key value lf.right right)
    | none =>
      match lf.right.get_if_red with
      | some lrf =>
        some (Link.rearrangement .Red lrf.key lrf.value lf.key lf.value
          lf.left lrf.left key value lrf.right right)
      | none => Color.balanceBlackRight key value left right
  | none => Color.balanceBlackRight key value left right

/-- The right-child half of the DoubleBlack case of `Color::balance`
(lines 283-297 of `lib.rs`). -/
def Color.balanceDoubleRight (key : α) (value : β) (left right : Link α β) :
    Option (Link α β) :=
  match right.get_if_red with
  | some rf =>
    match rf.left.get_if_red with
    | some rlf =>
      some (Link.rearrangement .Black rlf.key rlf.value key value left
        rlf.left rf.key rf.value rlf.right rf.right)
    | none => none
  | none => none

/-- The DoubleBlack case of `Color::balance` (lines 267-298 of `lib.rs`):
a Red child with an inner Red grandchild. -/
def Color.balanceDouble (key : α) (value : β) (left right : Link α β) :
    Option (Link α β) :=
  match left.get_if_red with
  | some lf =>
    match lf.right.get_if_red with
    | some lrf =>
      some (Link.rearrangement .Black lrf.key lrf.value lf.key lf.value
        lf.left lrf.left key value lrf.right right)
    | none => Color.balanceDoubleRight key value left right
  | none => Color.balanceDoubleRight key value left right

/-- `Color::balance`: try the Black rearrangements, then the DoubleBlack
rearrangements, otherwise rebuild the node unchanged. -/
def Color.balance (c : Color) (key : α) (value : β) (left right : Link α β) :
    Link α β :=
  match (if c.is_black then Color.balanceBlack key value left right
         else none) with
  | some res => res
  | none =>
    match (if c.is_double_black then Color.balanceDouble key value left right
           else none) with
    | some res => res
    | none => .node key value left right c

/-- `Link::insert` (lines 88-125 of `lib.rs`): Okasaki-style insertion,
passing the rebuilt node through `balance` on the way back up. -/
def Link.insert : Link α β → α → β → Link α β
  | .Empty, key, value => .node key value .Empty .Empty .Red
  | .node k v l r c, key, value =>
    match cmp3 key k with
    | .lt => Color.balance c k v (l.insert key value) r
    | .gt => Color.balance c k v l (r.insert key value)
    | .eq => .node key value l r c

/-- `Link::get_by`: three-way-comparison descent. -/
def Link.get_by (f : α → Ordering) : Link α β → Option (α × β)
  | .Empty => none
  | .node k v l r _ =>
    match f k with
    | .lt => l.get_by f
    | .gt => r.get_by f
    | .eq => some (k, v)

/-- The public `Tree<K, V>` wrapper around a root `Link`. -/
structure Tree (α β : Type) : Type where
  root : Link α β
  deriving DecidableEq

/-- `Tree::new`. -/
def Tree.new : Tree α β := ⟨.Empty⟩

/-- `Tree::get_by`. -/
def Tree.get_by (t : Tree α β) (f : α → Ordering) : Option (α × β) :=
  t.root.get_by f

/-- `Tree::get`: compare the probe against each node key, return the value. -/
def Tree.get (t : Tree α β) (key : α) : Option β :=
  (t.get_by fun node_key => cmp3 key node_key).map Prod.snd

/-- `Tree::insert`. -/
def Tree.insert (t : Tree α β) (key : α) (value : β) : Tree α β :=
  ⟨t.root.insert key value⟩

/-- `FromIterator for Tree`: fold `insert` over a sequence of pairs. -/
def Tree.from_iter (ps : List (α × β)) : Tree α β :=
  ps.foldl (fun t p => t.insert p.1 p.2) Tree.new

/-- In-order contents of a link, the sequence the iterator yields. -/
def Link.inorder : Link α β → List (α × β)
  | .Empty => []
  | .node k v l r _ => l.inorder ++ (k, v) :: r.inorder

/-- Number of nodes. -/
def Link.size : Link α β → Nat
  | .Empty => 0
  | .node _ _ l r _ => 1 + l.size + r.size

/-- Number of nodes on a longest root-to-leaf path. -/
def Link.height : Link α β → Nat
  | .Empty => 0
  | .node _ _ l r _ => 1 + max l.height r.height

/-! ## The iterator

`Iter` holds `start : Option<&Arc<Node>>` and an explicit stack
`Vec<&Arc<Node>>` of node references.  Node references are modelled as
`Frame`s; the `start` cursor is modelled as a `Link` (its `Option` is the
`Empty`/`node` distinction, `to_option` being the isomorphism).  `next`
descends the left spine pushing ancestors, then pops the stack; the Rust
`self.stack.pop().unwrap()` is modelled by an `Except` error when the pop
is attempted on an empty stack. -/

/-- The state of `Iter<'a, K, V>`. -/
structure Iter (α β : Type) : Type where
  start : Link α β
  stack : List (Frame α β)
  deriving DecidableEq

/-- `Tree::iter`: start at the root with an empty stack. -/
def Tree.iter (t : Tree α β) : Iter α β := ⟨t.root, []⟩

/-- The `while` loop of `Iter::next` (lines 447-460 of `lib.rs`): descend
left pushing nodes; on `Empty`, exit with `None` if the loop guard fails,
otherwise pop the stack (`.pop().unwrap()`, whose panic on an empty stack
is the `Except.error` branch) and yield the popped pair. -/
def Iter.loopNext : Link α β → List (Frame α β) →
    Except Unit (Option ((α × β) × Iter α β))
  | .node k v l r c, st => Iter.loopNext l (⟨k, v, l, r, c⟩ :: st)
  | .Empty, st =>
    if st.isEmpty then .ok none
    else
      match st with
      | [] => .error ()
      | f :: rest => .ok (some ((f.key, f.value), ⟨f.right, rest⟩))

/-- `Iter::next`: run the loop on the taken `start` cursor and the stack. -/
def Iter.next (it : Iter α β) : Except Unit (Option ((α × β) × Iter α β)) :=
  Iter.loopNext it.start it.stack

/-- Pull up to `fuel` items out of an iterator. -/
def Iter.drainF : Nat → Iter α β → List (α × β)
  | 0, _ => []
  | Nat.succ fuel, it =>
    match Iter.next it with
    | .error _ => []
    | .ok none => []
    | .ok (some (p, it2)) => p :: Iter.drainF fuel it2

/-- The full sequence `tree.iter()` yields (`size` items, so `size + 1`
pulls suffice; `iterList_eq_inorder` below shows the fuel is enough). -/
def Tree.iterList (t : Tree α β) : List (α × β) :=
  Iter.drainF (t.root.size + 1) t.iter

/-- The pairs an iterator state has yet to yield. -/
def Iter.remaining (it : Iter α β) : List (α × β) :=
  it.start.inorder ++
    it.stack.foldr (fun f acc => (f.key, f.value) :: (f.right.inorder ++ acc)) []

/-! ## Sorted association lists

`insert` and the spec-modelled `delete` are related to their effect on the
in-order contents.  `insList` is sorted-association-list insertion with the
same three-way-comparison skeleton as `Link::insert`. -/

/-- Keys strictly ascending (no duplicates). -/
def sortedPairs (ps : List (α × β)) : Prop :=
  List.Pairwise (fun p q => p.1 < q.1) ps

instance (ps : List (α × β)) : Decidable (sortedPairs ps) := by
  unfold sortedPairs; infer_instance

/-- Insertion into an association list ordered by key: place before the
first larger key, replace an equal key (new key and value win). -/
def insList (x : α) (v : β) : List (α × β) → List (α × β)
  | [] => [(x, v)]
  | p :: ps =>
    match cmp3 x p.1 with
    | .lt => (x, v) :: p :: ps
    | .gt => p :: insList x v ps
    | .eq => (x, v) :: ps

/-- Folding `insList` over a list of pairs, the list-level mirror of
`Tree::from_iter`. -/
def insListFold (ps : List (α × β)) : List (α × β) :=
  ps.foldl (fun acc p => insList p.1 p.2 acc) []

/-! ## The Equal case of insert as a pure value update -/

/-- Spec-side description of inserting an already-present key: replace the
value at the node whose key compares Equal, keeping the stored key, both
children and the color, and leaving every other node untouched. -/
def Link.updateValue (x : α) (v : β) : Link α β → Link α β
  | .Empty => .Empty
  | .node k w l r c =>
    match cmp3 x k with
    | .lt => .node k w (l.updateValue x v) r c
    | .gt => .node k w l (r.updateValue x v) c
    | .eq => .node k v l r c

/-- Whether the link is a Red node. -/
def Link.rootIsRed : Link α β → Bool
  | .Empty => false
  | .node _ _ _ _ c => c.is_red

/-- Left child of a node (`Empty` for `Empty`). -/
def Link.leftChild : Link α β → Link α β
  | .Empty => .Empty
  | .node _ _ l _ _ => l

/-- Right child of a node (`Empty` for `Empty`). -/
def Link.rightChild : Link α β → Link α β
  | .Empty => .Empty
  | .node _ _ _ r _ => r

/-- The condition under which `Color::balance` performs a rearrangement:
a Red child together with a Red grandchild on either side. -/
def balanceTrigger (l r : Link α β) : Bool :=
  (l.rootIsRed && (l.leftChild.rootIsRed || l.rightChild.rootIsRed)) ||
    (r.rootIsRed && (r.leftChild.rootIsRed || r.rightChild.rootIsRed))

/-- `balance` never fires anywhere in the tree: every node is Red, or has
no Red child with a Red grandchild.  This holds both for valid red-black
trees (no red-red adjacency) and for every tree this code builds by
inserts (all nodes Red). -/
def Link.balanceInert : Link α β → Bool
  | .Empty => true
  | .node _ _ l r c =>
    (c.is_red || !(balanceTrigger l r)) && l.balanceInert && r.balanceInert

/-! ## Deletion rebalancing (`Color::rotate`, lines 309-422 of `lib.rs`)

The source contains the full double-black machinery (`rotate`,
`double_black_to_black`, the DoubleBlack cases of `balance`) but no
`delete` entry point using it; `rotate` below is translated from the
source (`Link::new` on line 394 read as the evident `Link::Node`, and the
`self.key` field accesses of `double_black_to_black` read as `node.key`),
while `del`/`delete` further below are modelled from the spec. -/

/-- The Red case of `Color::rotate` (lines 311-339): a deficient side and
a Black sibling. -/
def Color.rotateRed (key : α) (value : β) (left right : Link α β) :
    Option (Link α β) :=
  match (if left.is_empty_or_double_black then right.get_if_black
         else none) with
  | some rf =>
    some (Color.balance .Black rf.key rf.value
      (.node key value left.double_black_to_black rf.left .Red) rf.right)
  | none =>
    match (if right.is_empty_or_double_black then left.get_if_black
           else none) with
    | some lf =>
      some (Color.balance .Black lf.key lf.value lf.left
        (.node key value lf.right right.double_black_to_black .Red))
    | none => none

/-- The Black case of `Color::rotate` with the deficiency on the left
(lines 341-376): Black sibling (second case, Figure 7) or Red sibling with
a Black near child (third case, Figure 9). -/
def Color.rotateBlackLeftSide (key : α) (value : β) (left right : Link α β) :
    Option (Link α β) :=
  if left.is_empty_or_double_black then
    match right.get_if_black with
    | some rf =>
      some (Color.balance .DoubleBlack rf.key rf.value
        (.node key value left.double_black_to_black rf.left .Red) rf.right)
    | none =>
      match right.get_if_red with
      | some rf =>
        match rf.left.get_if_black with
        | some rlf =>
          some (.node rf.key rf.value
            (Color.balance .Black rlf.key rlf.value
              (.node key value left.double_black_to_black rlf.left .Red)
              rlf.right)
            rf.right .Black)
        | none => none
      | none => none
  else none

/-- The Black case of `Color::rotate` with the deficiency on the right
(lines 377-412), mirror of the previous. -/
def Color.rotateBlackRightSide (key : α) (value : β) (left right : Link α β) :
    Option (Link α β) :=
  if right.is_empty_or_double_black then
    match left.get_if_black with
    | some lf =>
      some (Color.balance .DoubleBlack lf.key lf.value lf.left
        (.node key value lf.right right.double_black_to_black .Red))
    | none =>
      match left.get_if_red with
      | some lf =>
        match lf.right.get_if_black with
        | some lrf =>
          some (.node lf.key lf.value lf.left
            (Color.balance .Black lrf.key lrf.value lrf.left
              (.node key value lrf.right right.double_black_to_black .Red))
            .Black)
        | none => none
      | none => none
  else none

/-- `Color::rotate`: the deletion-specific rebalancing step. -/
def Color.rotate (c : Color) (key : α) (value : β) (left right : Link α β) :
    Link α β :=
  match (if c.is_red then Color.rotateRed key value left right
         else if c.is_black then
           match Color.rotateBlackLeftSide key value left right with
           | some res => some res
           | none => Color.rotateBlackRightSide key value left right
         else none) with
  | some res => res
  | none => .node key value left right c

/-! ## The spec-modelled delete -/

/-- Modelled from the spec: splicing out a node with at most one non-Empty
child, "converting the result to DoubleBlack if the removed node was Black
(removing a Black node always creates a one-level deficiency unless the
replacement was Red)".  A Red replacement of a Black node absorbs the
deficiency by turning Black; a deficient `Empty` result stays `Empty`,
which is exactly what the source's `is_empty_or_double_black` treats as
deficient. -/
def Link.spliceChild (c : Color) : Link α β → Link α β
  | .Empty => .Empty
  | .node k v l r cc =>
    if c.is_black then
      if cc.is_red then .node k v l r .Black
      else .node k v l r .DoubleBlack
    else .node k v l r cc

/-- Leftmost (minimal) pair of a tree, with a default for `Empty`. -/
def Link.minPairD : Link α β → α × β → α × β
  | .Empty, d => d
  | .node k v l _ _, _ => Link.minPairD l (k, v)

/-- Modelled from the spec: the recursive deletion pass (spec section 4.3);
the repository wires no `delete` entry point to its `rotate`/double-black
machinery, so the descent is taken from the spec's words: find the key,
splice out a node with at most one child, otherwise replace the node's pair
by its in-order successor and delete that successor from the right subtree;
every rebuilt ancestor goes through `rotate`. -/
def Link.del (x : α) : Link α β → Link α β
  | .Empty => .Empty
  | .node k v l r c =>
    match cmp3 x k with
    | .lt => Color.rotate c k v (Link.del x l) r
    | .gt => Color.rotate c k v l (Link.del x r)
    | .eq =>
      match l, r with
      | .Empty, rest => Link.spliceChild c rest
      | rest, .Empty => Link.spliceChild c rest
      | _, _ =>
        Color.rotate c (r.minPairD (k, v)).1 (r.minPairD (k, v)).2 l
          (Link.del (r.minPairD (k, v)).1 r)

/-- Modelled from the spec: `delete(tree, key)`; a DoubleBlack root left by
the pass is unconditionally demoted to Black. -/
def Tree.delete (t : Tree α β) (key : α) : Tree α β :=
  ⟨match Link.del key t.root with
    | .node k v l r .DoubleBlack => .node k v l r .Black
    | res => res⟩

/-- Removing every binding of key `x` from an association list. -/
def eraseKey (x : α) (ps : List (α × β)) : List (α × β) :=
  ps.filter fun p => decide (p.1 ≠ x)

/-- The first red-black invariant as a checker: no Red node has a Red
child anywhere in the tree. -/
def Link.noRedRedB : Link α β → Bool
  | .Empty => true
  | .node _ _ l r c =>
    !(c.is_red && (l.rootIsRed || r.rootIsRed)) && l.noRedRedB && r.noRedRedB

/-! ## Lemmas and theorems -/

theorem cmp3_eq_lt {x y : α} : cmp3 x y = .lt ↔ x < y := by
  unfold cmp3
  split
  · simp [*]
  · split <;> simp [*]

theorem cmp3_eq_gt {x y : α} : cmp3 x y = .gt ↔ y < x := by
  unfold cmp3
  split
  · rename_i h
    simp [asymm h, (by simp : Ordering.lt ≠ Ordering.gt)]
  · split <;> simp [*]

theorem cmp3_eq_eq {x y : α} : cmp3 x y = .eq ↔ x = y := by
  unfold cmp3
  split
  · rename_i h
    simp [ne_of_lt h, (by simp : Ordering.lt ≠ Ordering.eq)]
  · split
    · rename_i h
      simp [(ne_of_lt h).symm, (by simp : Ordering.gt ≠ Ordering.eq)]
    · rename_i h1 h2
      simp [le_antisymm (le_of_not_lt h2) (le_of_not_lt h1)]

theorem cmp3_self (x : α) : cmp3 x x = .eq := cmp3_eq_eq.mpr rfl

theorem Link.inorder_length (t : Link α β) : t.inorder.length = t.size := by
  induction t with
  | Empty => rfl
  | node k v l r c ihl ihr =>
    simp [Link.inorder, Link.size, ihl, ihr]
    omega

theorem Iter.loopNext_spec (cur : Link α β) (st : List (Frame α β)) :
    (Iter.loopNext cur st = .ok none ∧ Iter.remaining ⟨cur, st⟩ = []) ∨
    (∃ p it2, Iter.loopNext cur st = .ok (some (p, it2)) ∧
      Iter.remaining ⟨cur, st⟩ = p :: Iter.remaining it2) := by
  induction cur generalizing st with
  | Empty =>
    cases st with
    | nil => left; exact ⟨rfl, rfl⟩
    | cons f rest =>
      right
      exact ⟨(f.key, f.value), ⟨f.right, rest⟩, rfl, by
        simp [Iter.remaining, Link.inorder]⟩
  | node k v l r c ihl ihr =>
    rcases ihl (⟨k, v, l, r, c⟩ :: st) with ⟨h1, h2⟩ | ⟨p, it2, h1, h2⟩
    · left
      refine ⟨h1, ?_⟩
      revert h2
      simp [Iter.remaining, Link.inorder]
    · right
      refine ⟨p, it2, h1, ?_⟩
      revert h2
      simp [Iter.remaining, Link.inorder]

theorem Iter.drainF_remaining (fuel : Nat) (it : Iter α β)
    (h : it.remaining.length ≤ fuel) : Iter.drainF fuel it = it.remaining := by
  induction fuel generalizing it with
  | zero =>
    have : it.remaining = [] := List.eq_nil_of_length_eq_zero (by omega)
    simp [Iter.drainF, this]
  | succ fuel ih =>
    rcases Iter.loopNext_spec it.start it.stack with ⟨h1, h2⟩ | ⟨p, it2, h1, h2⟩
    · simp only [Iter.drainF, Iter.next, h1]
      exact h2.symm
    · have hrem : it.remaining = p :: it2.remaining := h2
      simp only [Iter.drainF, Iter.next, h1, hrem]
      have : it2.remaining.length ≤ fuel := by
        have := h
        rw [hrem] at this
        simpa using this
      rw [ih it2 this]

/-- Bridging lemma: iterating a tree yields exactly its in-order contents. -/
theorem Tree.iterList_eq_inorder (t : Tree α β) :
    t.iterList = t.root.inorder := by
  have hrem : (Tree.iter t).remaining = t.root.inorder := by
    simp [Iter.remaining, Tree.iter]
  rw [Tree.iterList, Iter.drainF_remaining _ _ (by
    rw [hrem, Link.inorder_length]; omega), hrem]

theorem Link.get_if_red_some {t : Link α β} {f : Frame α β}
    (h : t.get_if_red = some f) :
    t = .node f.key f.value f.left f.right .Red := by
  cases t with
  | Empty => exact absurd h (by simp [Link.get_if_red])
  | node k v l r c =>
    cases c with
    | Red =>
      simp only [Link.get_if_red, Option.some.injEq] at h
      rw [← h]
    | Black => exact absurd h (by simp [Link.get_if_red])
    | DoubleBlack => exact absurd h (by simp [Link.get_if_red])

theorem Link.get_if_black_some {t : Link α β} {f : Frame α β}
    (h : t.get_if_black = some f) :
    t = .node f.key f.value f.left f.right .Black := by
  cases t with
  | Empty => exact absurd h (by simp [Link.get_if_black])
  | node k v l r c =>
    cases c with
    | Black =>
      simp only [Link.get_if_black, Option.some.injEq] at h
      rw [← h]
    | Red => exact absurd h (by simp [Link.get_if_black])
    | DoubleBlack => exact absurd h (by simp [Link.get_if_black])

theorem Link.inorder_rearrangement (c : Color) (pk : α) (pv : β) (lk : α)
    (lv : β) (ll lr : Link α β) (rk : α) (rv : β) (rl rr : Link α β) :
    (Link.rearrangement c pk pv lk lv ll lr rk rv rl rr).inorder =
      (ll.inorder ++ (lk, lv) :: lr.inorder) ++
        (pk, pv) :: (rl.inorder ++ (rk, rv) :: rr.inorder) := by
  simp [Link.rearrangement, Link.inorder]

theorem Color.inorder_balanceBlackRight {k : α} {v : β} {l r res : Link α β}
    (h : Color.balanceBlackRight k v l r = some res) :
    res.inorder = l.inorder ++ (k, v) :: r.inorder := by
  unfold Color.balanceBlackRight at h
  split at h
  · rename_i rf hrf
    split at h
    · rename_i rlf hrlf
      cases h
      rw [Link.get_if_red_some hrf, Link.get_if_red_some hrlf,
        Link.inorder_rearrangement]
      simp [Link.inorder]
    · split at h
      · rename_i rrf hrrf
        cases h
        rw [Link.get_if_red_some hrf, Link.get_if_red_some hrrf,
          Link.inorder_rearrangement]
        simp [Link.inorder]
      · exact absurd h (by simp)
  · exact absurd h (by simp)

theorem Color.inorder_balanceBlack {k : α} {v : β} {l r res : Link α β}
    (h : Color.balanceBlack k v l r = some res) :
    res.inorder = l.inorder ++ (k, v) :: r.inorder := by
  unfold Color.balanceBlack at h
  split at h
  · rename_i lf hlf
    split at h
    · rename_i llf hllf
      cases h
      rw [Link.get_if_red_some hlf, Link.get_if_red_some hllf,
        Link.inorder_rearrangement]
      simp [Link.inorder]
    · split at h
      · rename_i lrf hlrf
        cases h
        rw [Link.get_if_red_some hlf, Link.get_if_red_some hlrf,
          Link.inorder_rearrangement]
        simp [Link.inorder]
      · exact Color.inorder_balanceBlackRight h
  · exact Color.inorder_balanceBlackRight h

theorem Color.inorder_balanceDoubleRight {k : α} {v : β} {l r res : Link α β}
    (h : Color.balanceDoubleRight k v l r = some res) :
    res.inorder = l.inorder ++ (k, v) :: r.inorder := by
  unfold Color.balanceDoubleRight at h
  split at h
  · rename_i rf hrf
    split at h
    · rename_i rlf hrlf
      cases h
      rw [Link.get_if_red_some hrf, Link.get_if_red_some hrlf,
        Link.inorder_rearrangement]
      simp [Link.inorder]
    · exact absurd h (by simp)
  · exact absurd h (by simp)

theorem Color.inorder_balanceDouble {k : α} {v : β} {l r res : Link α β}
    (h : Color.balanceDouble k v l r = some res) :
    res.inorder = l.inorder ++ (k, v) :: r.inorder := by
  unfold Color.balanceDouble at h
  split at h
  · rename_i lf hlf
    split at h
    · rename_i lrf hlrf
      cases h
      rw [Link.get_if_red_some hlf, Link.get_if_red_some hlrf,
        Link.inorder_rearrangement]
      simp [Link.inorder]
    · exact Color.inorder_balanceDoubleRight h
  · exact Color.inorder_balanceDoubleRight h

/-- `balance` only ever rearranges a subtree: the in-order contents of its
result are always those of the node it was asked to build. -/
theorem Color.inorder_balance (c : Color) (k : α) (v : β) (l r : Link α β) :
    (Color.balance c k v l r).inorder = l.inorder ++ (k, v) :: r.inorder := by
  unfold Color.balance
  split
  · rename_i res h
    split at h
    · exact Color.inorder_balanceBlack h
    · exact absurd h (by simp)
  · split
    · rename_i res h
      split at h
      · exact Color.inorder_balanceDouble h
      · exact absurd h (by simp)
    · simp [Link.inorder]

theorem insList_append_lt (x : α) (v : β) (A : List (α × β)) (p : α × β)
    (B : List (α × β)) (hx : x < p.1) :
    insList x v (A ++ p :: B) = insList x v A ++ p :: B := by
  induction A with
  | nil => simp [insList, cmp3_eq_lt.mpr hx]
  | cons a A ih =>
    simp only [List.cons_append, insList]
    cases ha : cmp3 x a.1 <;> simp [ih]

theorem insList_append_gt (x : α) (v : β) (A : List (α × β)) (p : α × β)
    (B : List (α × β)) (hA : ∀ a ∈ A, a.1 < x) (hp : p.1 < x) :
    insList x v (A ++ p :: B) = A ++ p :: insList x v B := by
  induction A with
  | nil => simp [insList, cmp3_eq_gt.mpr hp]
  | cons a A ih =>
    have ha : cmp3 x a.1 = .gt := cmp3_eq_gt.mpr (hA a (by simp))
    simp only [List.cons_append, insList, ha, List.append_eq]
    rw [ih (fun b hb => hA b (by simp [hb]))]

theorem insList_append_eq (x : α) (v w : β) (A B : List (α × β))
    (hA : ∀ a ∈ A, a.1 < x) :
    insList x v (A ++ (x, w) :: B) = A ++ (x, v) :: B := by
  induction A with
  | nil => simp [insList, cmp3_self]
  | cons a A ih =>
    have ha : cmp3 x a.1 = .gt := cmp3_eq_gt.mpr (hA a (by simp))
    simp only [List.cons_append, insList, ha, List.append_eq]
    rw [ih (fun b hb => hA b (by simp [hb]))]

theorem mem_insList {x : α} {v : β} {ps : List (α × β)} {q : α × β}
    (h : q ∈ insList x v ps) : q = (x, v) ∨ q ∈ ps := by
  induction ps with
  | nil => simp [insList] at h; simp [h]
  | cons p ps ih =>
    simp only [insList] at h
    cases hc : cmp3 x p.1 <;> rw [hc] at h <;> simp at h
    · rcases h with h | h | h <;> simp [h]
    · rcases h with h | h <;> simp [h]
    · rcases h with h | h
      · simp [h]
      · rcases ih h with h | h <;> simp [h]

theorem sortedPairs_insList {x : α} {v : β} {ps : List (α × β)}
    (h : sortedPairs ps) : sortedPairs (insList x v ps) := by
  induction ps with
  | nil => simp [insList, sortedPairs]
  | cons p ps ih =>
    rcases List.pairwise_cons.mp h with ⟨hp, hps⟩
    simp only [insList]
    cases hc : cmp3 x p.1
    · refine List.pairwise_cons.mpr ⟨?_, h⟩
      intro q hq
      rcases List.mem_cons.mp hq with rfl | hq
      · exact cmp3_eq_lt.mp hc
      · exact lt_trans (cmp3_eq_lt.mp hc) (hp q hq)
    · rw [cmp3_eq_eq] at hc
      subst hc
      exact List.pairwise_cons.mpr ⟨hp, hps⟩
    · refine List.pairwise_cons.mpr ⟨?_, ih hps⟩
      intro q hq
      rcases mem_insList hq with rfl | hq
      · exact cmp3_eq_gt.mp hc
      · exact hp q hq

/-- From the sortedness of a node's in-order contents, extract the facts
about the two halves. -/
theorem sortedPairs_node_split {l r : Link α β} {k : α} {w : β}
    (h : sortedPairs (l.inorder ++ (k, w) :: r.inorder)) :
    sortedPairs l.inorder ∧ sortedPairs r.inorder ∧
      (∀ a ∈ l.inorder, a.1 < k) ∧ (∀ b ∈ r.inorder, k < b.1) := by
  rcases List.pairwise_append.mp h with ⟨hA, hkB, hcross⟩
  rcases List.pairwise_cons.mp hkB with ⟨hB, hBsorted⟩
  refine ⟨hA, hBsorted, ?_, hB⟩
  intro a ha
  exact hcross a ha (k, w) (by simp)

/-- On a tree with sorted in-order contents, `insert` acts on the in-order
contents exactly as sorted-association-list insertion. -/
theorem Link.inorder_insert (t : Link α β) (x : α) (v : β)
    (h : sortedPairs t.inorder) :
    (t.insert x v).inorder = insList x v t.inorder := by
  induction t with
  | Empty => simp [Link.insert, Link.inorder, insList]
  | node k w l r c ihl ihr =>
    rw [Link.inorder] at h
    rcases sortedPairs_node_split h with ⟨sl, sr, hA, hB⟩
    rw [Link.insert]
    cases hc : cmp3 x k
    · rw [Link.inorder, Color.inorder_balance, ihl sl, insList_append_lt]
      exact cmp3_eq_lt.mp hc
    · have hxk := cmp3_eq_eq.mp hc
      subst hxk
      simp only [Link.inorder]
      rw [insList_append_eq x v w _ _ hA]
    · rw [Link.inorder, Color.inorder_balance, ihr sr, insList_append_gt]
      · intro a ha
        exact lt_trans (hA a ha) (cmp3_eq_gt.mp hc)
      · exact cmp3_eq_gt.mp hc

theorem from_iter_general (ps : List (α × β)) (t : Tree α β)
    (h : sortedPairs t.root.inorder) :
    sortedPairs (ps.foldl (fun t p => t.insert p.1 p.2) t).root.inorder ∧
      (ps.foldl (fun t p => t.insert p.1 p.2) t).root.inorder =
        ps.foldl (fun acc p => insList p.1 p.2 acc) t.root.inorder := by
  induction ps generalizing t with
  | nil => exact ⟨h, rfl⟩
  | cons p ps ih =>
    simp only [List.foldl_cons]
    have h1 : sortedPairs (t.insert p.1 p.2).root.inorder := by
      show sortedPairs (t.root.insert p.1 p.2).inorder
      rw [Link.inorder_insert _ _ _ h]
      exact sortedPairs_insList h
    refine ⟨(ih (t.insert p.1 p.2) h1).1, ?_⟩
    rw [(ih (t.insert p.1 p.2) h1).2]
    congr 1
    exact Link.inorder_insert _ _ _ h

/-- A tree built by inserting any sequence of pairs into the empty tree has
sorted in-order contents, namely the `insList` fold of the sequence. -/
theorem from_iter_inorder (ps : List (α × β)) :
    sortedPairs (Tree.from_iter ps).root.inorder ∧
      (Tree.from_iter ps).root.inorder = insListFold ps := by
  have := from_iter_general ps Tree.new (by simp [Tree.new, Link.inorder, sortedPairs])
  exact ⟨this.1, by rw [Tree.from_iter, this.2]; rfl⟩

/-- Lookup against sorted contents: `get_by` with an exact-key probe finds
exactly what linear search of the in-order contents finds. -/
theorem Link.get_by_eq_find (t : Link α β) (x : α)
    (h : sortedPairs t.inorder) :
    Link.get_by (fun node_key => cmp3 x node_key) t =
      t.inorder.find? (fun p => decide (p.1 = x)) := by
  induction t with
  | Empty => rfl
  | node k v l r c ihl ihr =>
    rw [Link.inorder] at h
    rcases sortedPairs_node_split h with ⟨sl, sr, hA, hB⟩
    rw [Link.get_by, Link.inorder, List.find?_append]
    cases hc : cmp3 x k
    · rw [ihl sl]
      have hnone : (((k, v) :: r.inorder).find?
          (fun p => decide (p.1 = x))) = none := by
        rw [List.find?_eq_none]
        intro p hp
        rcases List.mem_cons.mp hp with rfl | hp
        · simp [ne_of_gt (cmp3_eq_lt.mp hc)]
        · simp [ne_of_gt (lt_trans (cmp3_eq_lt.mp hc) (hB p hp))]
      cases hfl : l.inorder.find? fun p => decide (p.1 = x) <;>
        simp [hnone, hfl]
    · have hxk := cmp3_eq_eq.mp hc
      subst hxk
      have hnoneA : (l.inorder.find? fun p => decide (p.1 = x)) = none := by
        rw [List.find?_eq_none]
        intro p hp
        simp [ne_of_lt (hA p hp)]
      simp [hnoneA, List.find?_cons]
    · have hnoneA : (l.inorder.find? fun p => decide (p.1 = x)) = none := by
        rw [List.find?_eq_none]
        intro p hp
        simp [ne_of_lt (lt_trans (hA p hp) (cmp3_eq_gt.mp hc))]
      rw [ihr sr]
      simp [hnoneA, List.find?_cons, ne_of_lt (cmp3_eq_gt.mp hc),
        (ne_of_lt (cmp3_eq_gt.mp hc)).symm]

/-- Replacing or adding the binding of key `x` does not change what linear
search finds for a different key. -/
theorem find?_insList (x x' : α) (v : β) (L : List (α × β)) (hne : x' ≠ x) :
    (insList x v L).find? (fun p => decide (p.1 = x')) =
      L.find? (fun p => decide (p.1 = x')) := by
  induction L with
  | nil => simp [insList, List.find?, hne.symm]
  | cons p L ih =>
    simp only [insList]
    cases hc : cmp3 x p.1
    · simp [List.find?_cons, hne.symm]
    · have := cmp3_eq_eq.mp hc
      subst this
      simp [List.find?_cons, hne.symm]
    · simp only [List.find?_cons]
      cases hp : (decide (p.1 = x')) <;> simp [ih]

theorem mem_insList_sorted {x : α} {v : β} {L : List (α × β)}
    (h : sortedPairs L) (q : α × β) :
    q ∈ insList x v L ↔ q = (x, v) ∨ (q ∈ L ∧ q.1 ≠ x) := by
  induction L with
  | nil => simp [insList]
  | cons p L ih =>
    rcases List.pairwise_cons.mp h with ⟨hp, hL⟩
    simp only [insList]
    cases hc : cmp3 x p.1
    · have hx := cmp3_eq_lt.mp hc
      constructor
      · intro hq
        rcases List.mem_cons.mp hq with rfl | hq
        · exact Or.inl rfl
        · refine Or.inr ⟨hq, ?_⟩
          rcases List.mem_cons.mp hq with rfl | hq
          · exact ne_of_gt hx
          · exact ne_of_gt (lt_trans hx (hp q hq))
      · rintro (rfl | ⟨hq, _⟩)
        · simp
        · simp [hq]
    · have hx := cmp3_eq_eq.mp hc
      constructor
      · intro hq
        rcases List.mem_cons.mp hq with rfl | hq
        · exact Or.inl rfl
        · exact Or.inr ⟨List.mem_cons.mpr (Or.inr hq),
            ne_of_gt (hx ▸ hp q hq)⟩
      · rintro (rfl | ⟨hq, hqx⟩)
        · simp
        · rcases List.mem_cons.mp hq with rfl | hq
          · exact absurd hx.symm hqx
          · simp [hq]
    · have hx := cmp3_eq_gt.mp hc
      constructor
      · intro hq
        rcases List.mem_cons.mp hq with rfl | hq
        · exact Or.inr ⟨by simp, ne_of_lt hx⟩
        · rcases (ih hL).mp hq with rfl | ⟨hq2, hqx⟩
          · exact Or.inl rfl
          · exact Or.inr ⟨List.mem_cons.mpr (Or.inr hq2), hqx⟩
      · rintro (rfl | ⟨hq, hqx⟩)
        · exact List.mem_cons.mpr (Or.inr ((ih hL).mpr (Or.inl rfl)))
        · rcases List.mem_cons.mp hq with rfl | hq
          · simp
          · exact List.mem_cons.mpr (Or.inr ((ih hL).mpr (Or.inr ⟨hq, hqx⟩)))

/-- Pairs in an `insList` fold are exactly the last-inserted binding per
key: `p` is in the result iff the most recent pair of `ps` whose key is
`p.1` is `p` itself. -/
theorem mem_insListFold (ps : List (α × β)) (p : α × β) :
    p ∈ insListFold ps ↔
      ps.reverse.find? (fun q => decide (q.1 = p.1)) = some p := by
  induction ps using List.reverseRecOn with
  | nil => simp [insListFold]
  | append_singleton ps q ih =>
    have hfold : insListFold (ps ++ [q]) = insList q.1 q.2 (insListFold ps) := by
      simp [insListFold]
    have hsorted : sortedPairs (insListFold ps) := by
      have := from_iter_inorder (α := α) (β := β) ps
      rw [← this.2]
      exact this.1
    rw [hfold, List.reverse_append]
    simp only [List.reverse_singleton, List.singleton_append]
    rw [mem_insList_sorted hsorted]
    by_cases hq : q.1 = p.1
    · rw [List.find?_cons_of_pos _ (by simp [hq])]
      constructor
      · rintro (rfl | ⟨_, hne⟩)
        · rfl
        · exact absurd hq (fun hc => hne hc.symm)
      · intro hsome
        have heq : q = p := Option.some.inj hsome
        exact Or.inl (by rw [← heq])
    · rw [List.find?_cons_of_neg _ (by simp [hq]), ih]
      constructor
      · rintro (rfl | ⟨hp, _⟩)
        · exact absurd rfl hq
        · exact hp
      · intro hfind
        exact Or.inr ⟨hfind, fun hc => hq hc.symm⟩

/-- Two key-sorted association lists with the same members are equal. -/
theorem sortedPairs_ext {L1 L2 : List (α × β)} (h1 : sortedPairs L1)
    (h2 : sortedPairs L2) (hmem : ∀ p, p ∈ L1 ↔ p ∈ L2) : L1 = L2 := by
  induction L1 generalizing L2 with
  | nil =>
    cases L2 with
    | nil => rfl
    | cons p L2 => exact absurd ((hmem p).mpr (by simp)) (by simp)
  | cons p L1 ih =>
    cases L2 with
    | nil => exact absurd ((hmem p).mp (by simp)) (by simp)
    | cons q L2 =>
      rcases List.pairwise_cons.mp h1 with ⟨hp1, hs1⟩
      rcases List.pairwise_cons.mp h2 with ⟨hp2, hs2⟩
      have hpq : p = q := by
        rcases List.mem_cons.mp ((hmem p).mp (by simp)) with h | h
        · exact h
        · rcases List.mem_cons.mp ((hmem q).mpr (by simp)) with h' | h'
          · exact h'.symm
          · exact absurd (lt_trans (hp2 p h) (hp1 q h'))
              (lt_irrefl q.1)
      subst hpq
      have : L1 = L2 := by
        refine ih hs1 hs2 (fun r => ⟨fun hr => ?_, fun hr => ?_⟩)
        · rcases List.mem_cons.mp ((hmem r).mp (List.mem_cons.mpr
            (Or.inr hr))) with h | h
          · exact absurd (h ▸ hp1 r hr) (lt_irrefl p.1)
          · exact h
        · rcases List.mem_cons.mp ((hmem r).mpr (List.mem_cons.mpr
            (Or.inr hr))) with h | h
          · exact absurd (h ▸ hp2 r hr) (lt_irrefl p.1)
          · exact h
      rw [this]

theorem Link.get_if_red_eq_none {t : Link α β} (h : t.rootIsRed = false) :
    t.get_if_red = none := by
  cases t with
  | Empty => rfl
  | node k v l r c => cases c <;> simp_all [Link.rootIsRed, Color.is_red,
      Link.get_if_red]

theorem Link.rootIsRed_of_get_if_red {t : Link α β} {f : Frame α β}
    (h : t.get_if_red = some f) : t.rootIsRed = true := by
  rw [Link.get_if_red_some h]
  rfl

theorem Color.balanceBlackRight_none {k : α} {v : β} {l r : Link α β}
    (h : (r.rootIsRed && (r.leftChild.rootIsRed || r.rightChild.rootIsRed))
      = false) : Color.balanceBlackRight k v l r = none := by
  cases hres : Color.balanceBlackRight k v l r with
  | none => rfl
  | some res =>
    exfalso
    rw [Color.balanceBlackRight] at hres
    split at hres
    · rename_i rf hrf
      rw [Link.get_if_red_some hrf] at h
      simp only [Link.rootIsRed, Color.is_red, Link.leftChild,
        Link.rightChild, Bool.true_and, Bool.or_eq_false_iff] at h
      split at hres
      · rename_i rlf hrlf
        exact (by decide : (true : Bool) ≠ false)
          ((Link.rootIsRed_of_get_if_red hrlf).symm.trans h.1)
      · split at hres
        · rename_i rrf hrrf
          exact (by decide : (true : Bool) ≠ false)
            ((Link.rootIsRed_of_get_if_red hrrf).symm.trans h.2)
        · exact Option.noConfusion hres
    · exact Option.noConfusion hres

theorem Color.balanceBlack_none {k : α} {v : β} {l r : Link α β}
    (h : balanceTrigger l r = false) : Color.balanceBlack k v l r = none := by
  rw [balanceTrigger, Bool.or_eq_false_iff] at h
  obtain ⟨h1, h2⟩ := h
  cases hres : Color.balanceBlack k v l r with
  | none => rfl
  | some res =>
    exfalso
    rw [Color.balanceBlack] at hres
    split at hres
    · rename_i lf hlf
      rw [Link.get_if_red_some hlf] at h1
      simp only [Link.rootIsRed, Color.is_red, Link.leftChild,
        Link.rightChild, Bool.true_and, Bool.or_eq_false_iff] at h1
      split at hres
      · rename_i llf hllf
        exact (by decide : (true : Bool) ≠ false)
          ((Link.rootIsRed_of_get_if_red hllf).symm.trans h1.1)
      · split at hres
        · rename_i lrf hlrf
          exact (by decide : (true : Bool) ≠ false)
            ((Link.rootIsRed_of_get_if_red hlrf).symm.trans h1.2)
        · rw [Color.balanceBlackRight_none h2] at hres
          exact Option.noConfusion hres
    · rw [Color.balanceBlackRight_none h2] at hres
      exact Option.noConfusion hres

theorem Color.balanceDoubleRight_none {k : α} {v : β} {l r : Link α β}
    (h : (r.rootIsRed && (r.leftChild.rootIsRed || r.rightChild.rootIsRed))
      = false) : Color.balanceDoubleRight k v l r = none := by
  cases hres : Color.balanceDoubleRight k v l r with
  | none => rfl
  | some res =>
    exfalso
    rw [Color.balanceDoubleRight] at hres
    split at hres
    · rename_i rf hrf
      rw [Link.get_if_red_some hrf] at h
      simp only [Link.rootIsRed, Color.is_red, Link.leftChild,
        Link.rightChild, Bool.true_and, Bool.or_eq_false_iff] at h
      split at hres
      · rename_i rlf hrlf
        exact (by decide : (true : Bool) ≠ false)
          ((Link.rootIsRed_of_get_if_red hrlf).symm.trans h.1)
      · exact Option.noConfusion hres
    · exact Option.noConfusion hres

theorem Color.balanceDouble_none {k : α} {v : β} {l r : Link α β}
    (h : balanceTrigger l r = false) : Color.balanceDouble k v l r = none := by
  rw [balanceTrigger, Bool.or_eq_false_iff] at h
  obtain ⟨h1, h2⟩ := h
  cases hres : Color.balanceDouble k v l r with
  | none => rfl
  | some res =>
    exfalso
    rw [Color.balanceDouble] at hres
    split at hres
    · rename_i lf hlf
      rw [Link.get_if_red_some hlf] at h1
      simp only [Link.rootIsRed, Color.is_red, Link.leftChild,
        Link.rightChild, Bool.true_and, Bool.or_eq_false_iff] at h1
      split at hres
      · rename_i lrf hlrf
        exact (by decide : (true : Bool) ≠ false)
          ((Link.rootIsRed_of_get_if_red hlrf).symm.trans h1.2)
      · rw [Color.balanceDoubleRight_none h2] at hres
        exact Option.noConfusion hres
    · rw [Color.balanceDoubleRight_none h2] at hres
      exact Option.noConfusion hres

/-- `balance` at a Red node never rearranges. -/
theorem Color.balance_red (k : α) (v : β) (l r : Link α β) :
    Color.balance .Red k v l r = .node k v l r .Red := rfl

/-- Without a Red child / Red grandchild danger shape, `balance` rebuilds
the node unchanged, whatever the color. -/
theorem Color.balance_fallthrough (c : Color) (k : α) (v : β)
    {l r : Link α β} (h : balanceTrigger l r = false) :
    Color.balance c k v l r = .node k v l r c := by
  cases c with
  | Red => exact Color.balance_red k v l r
  | Black =>
    rw [Color.balance]
    simp [Color.is_black, Color.is_double_black, Color.balanceBlack_none h]
  | DoubleBlack =>
    rw [Color.balance]
    simp [Color.is_black, Color.is_double_black, Color.balanceDouble_none h]

theorem Link.updateValue_rootIsRed (t : Link α β) (x : α) (v : β) :
    (t.updateValue x v).rootIsRed = t.rootIsRed := by
  cases t with
  | Empty => rfl
  | node k w l r c =>
    rw [Link.updateValue]
    cases cmp3 x k <;> rfl

theorem Link.updateValue_leftChild_rootIsRed (t : Link α β) (x : α) (v : β) :
    (t.updateValue x v).leftChild.rootIsRed = t.leftChild.rootIsRed := by
  cases t with
  | Empty => rfl
  | node k w l r c =>
    rw [Link.updateValue]
    cases cmp3 x k
    · simp [Link.leftChild, Link.updateValue_rootIsRed]
    · rfl
    · rfl

theorem Link.updateValue_rightChild_rootIsRed (t : Link α β) (x : α) (v : β) :
    (t.updateValue x v).rightChild.rootIsRed = t.rightChild.rootIsRed := by
  cases t with
  | Empty => rfl
  | node k w l r c =>
    rw [Link.updateValue]
    cases cmp3 x k
    · rfl
    · rfl
    · simp [Link.rightChild, Link.updateValue_rootIsRed]

theorem balanceTrigger_updateValue_left (l r : Link α β) (x : α) (v : β) :
    balanceTrigger (l.updateValue x v) r = balanceTrigger l r := by
  rw [balanceTrigger, balanceTrigger, Link.updateValue_rootIsRed,
    Link.updateValue_leftChild_rootIsRed, Link.updateValue_rightChild_rootIsRed]

theorem balanceTrigger_updateValue_right (l r : Link α β) (x : α) (v : β) :
    balanceTrigger l (r.updateValue x v) = balanceTrigger l r := by
  rw [balanceTrigger, balanceTrigger, Link.updateValue_rootIsRed,
    Link.updateValue_leftChild_rootIsRed, Link.updateValue_rightChild_rootIsRed]

/-- C6: inserting a key that compares Equal to a present key only replaces
that node's value: the replacement node has the same stored key (`cmp3`
Equal means the keys coincide), the same left and right children, and the
same color, and every other node is untouched.  The `balanceInert`
hypothesis holds for valid red-black trees (no red-red adjacency) and for
every tree this code's inserts build (all nodes Red); without it `balance`
could rearrange an arbitrary ill-colored tree on the way back up. -/
theorem Link.insert_present_updates (t : Link α β) (x : α) (v : β)
    (hin : t.balanceInert = true)
    (hmem : (Link.get_by (fun node_key => cmp3 x node_key) t).isSome = true) :
    t.insert x v = t.updateValue x v := by
  induction t with
  | Empty => simp [Link.get_by] at hmem
  | node k w l r c ihl ihr =>
    rw [Link.balanceInert, Bool.and_eq_true, Bool.and_eq_true] at hin
    rw [Link.get_by] at hmem
    rw [Link.insert, Link.updateValue]
    cases hc : cmp3 x k
    · rw [hc] at hmem
      rw [ihl hin.1.2 hmem]
      rcases Bool.or_eq_true_iff.mp hin.1.1 with hred | htrig
      · have : c = .Red := by cases c <;> simp_all [Color.is_red]
        subst this
        exact Color.balance_red k w _ r
      · refine Color.balance_fallthrough c k w ?_
        rw [balanceTrigger_updateValue_left]
        simpa using htrig
    · have hxk := cmp3_eq_eq.mp hc
      subst hxk
      rfl
    · rw [hc] at hmem
      rw [ihr hin.2 hmem]
      rcases Bool.or_eq_true_iff.mp hin.1.1 with hred | htrig
      · have : c = .Red := by cases c <;> simp_all [Color.is_red]
        subst this
        exact Color.balance_red k w l _
      · refine Color.balance_fallthrough c k w ?_
        rw [balanceTrigger_updateValue_right]
        simpa using htrig

theorem Link.inorder_double_black_to_black (t : Link α β) :
    t.double_black_to_black.inorder = t.inorder := by
  cases t <;> rfl

theorem Color.inorder_rotateRed {k : α} {v : β} {l r res : Link α β}
    (h : Color.rotateRed k v l r = some res) :
    res.inorder = l.inorder ++ (k, v) :: r.inorder := by
  rw [Color.rotateRed] at h
  split at h
  · rename_i rf hrf
    split at hrf
    · cases h
      rw [Link.get_if_black_some hrf, Color.inorder_balance]
      simp [Link.inorder, Link.inorder_double_black_to_black]
    · exact Option.noConfusion hrf
  · split at h
    · rename_i lf hlf
      split at hlf
      · cases h
        rw [Link.get_if_black_some hlf, Color.inorder_balance]
        simp [Link.inorder, Link.inorder_double_black_to_black]
      · exact Option.noConfusion hlf
    · exact Option.noConfusion h

theorem Color.inorder_rotateBlackLeftSide {k : α} {v : β} {l r res : Link α β}
    (h : Color.rotateBlackLeftSide k v l r = some res) :
    res.inorder = l.inorder ++ (k, v) :: r.inorder := by
  rw [Color.rotateBlackLeftSide] at h
  split at h
  · split at h
    · rename_i rf hrf
      cases h
      rw [Link.get_if_black_some hrf, Color.inorder_balance]
      simp [Link.inorder, Link.inorder_double_black_to_black]
    · split at h
      · rename_i rf hrf
        split at h
        · rename_i rlf hrlf
          cases h
          rw [Link.get_if_red_some hrf, Link.get_if_black_some hrlf,
            Link.inorder, Link.inorder, Color.inorder_balance]
          simp [Link.inorder, Link.inorder_double_black_to_black]
        · exact Option.noConfusion h
      · exact Option.noConfusion h
  · exact Option.noConfusion h

theorem Color.inorder_rotateBlackRightSide {k : α} {v : β} {l r res : Link α β}
    (h : Color.rotateBlackRightSide k v l r = some res) :
    res.inorder = l.inorder ++ (k, v) :: r.inorder := by
  rw [Color.rotateBlackRightSide] at h
  split at h
  · split at h
    · rename_i lf hlf
      cases h
      rw [Link.get_if_black_some hlf, Color.inorder_balance]
      simp [Link.inorder, Link.inorder_double_black_to_black]
    · split at h
      · rename_i lf hlf
        split at h
        · rename_i lrf hlrf
          cases h
          rw [Link.get_if_red_some hlf, Link.get_if_black_some hlrf,
            Link.inorder, Link.inorder, Color.inorder_balance]
          simp [Link.inorder, Link.inorder_double_black_to_black]
        · exact Option.noConfusion h
      · exact Option.noConfusion h
  · exact Option.noConfusion h

/-- Like `balance`, `rotate` only ever rearranges: the in-order contents
of its result are those of the node it was asked to build. -/
theorem Color.inorder_rotate (c : Color) (k : α) (v : β) (l r : Link α β) :
    (Color.rotate c k v l r).inorder = l.inorder ++ (k, v) :: r.inorder := by
  rw [Color.rotate]
  split
  · rename_i res h
    cases c with
    | Red => exact Color.inorder_rotateRed h
    | Black =>
      simp only [Color.is_red, Color.is_black, Bool.false_eq_true,
        if_false, if_true] at h
      split at h
      · rename_i res2 h2
        cases h
        exact Color.inorder_rotateBlackLeftSide h2
      · exact Color.inorder_rotateBlackRightSide h
    | DoubleBlack => exact Option.noConfusion h
  · simp [Link.inorder]

theorem eraseKey_append (x : α) (A B : List (α × β)) :
    eraseKey x (A ++ B) = eraseKey x A ++ eraseKey x B := by
  simp [eraseKey]

theorem eraseKey_of_ne (x : α) {L : List (α × β)}
    (h : ∀ p ∈ L, p.1 ≠ x) : eraseKey x L = L := by
  rw [eraseKey, List.filter_eq_self]
  intro p hp
  simpa using h p hp

theorem eraseKey_cons_self (x : α) (w : β) (B : List (α × β)) :
    eraseKey x ((x, w) :: B) = eraseKey x B := by
  simp [eraseKey]

theorem Link.spliceChild_inorder (c : Color) (t : Link α β) :
    (Link.spliceChild c t).inorder = t.inorder := by
  cases t with
  | Empty => rfl
  | node k v l r cc =>
    rw [Link.spliceChild]
    split
    · split <;> rfl
    · rfl

theorem Link.inorder_minPairD (t : Link α β) (d : α × β) (ht : t ≠ .Empty) :
    ∃ rest, t.inorder = t.minPairD d :: rest := by
  induction t generalizing d with
  | Empty => exact absurd rfl ht
  | node k v l r c ihl ihr =>
    rw [Link.inorder, Link.minPairD]
    cases l with
    | Empty => exact ⟨r.inorder, by simp [Link.inorder, Link.minPairD]⟩
    | node lk lv ll lr lc =>
      obtain ⟨rest, hrest⟩ := ihl (k, v) (by simp)
      exact ⟨rest ++ (k, v) :: r.inorder, by rw [hrest]; simp⟩

theorem eraseKey_cons_ne (x : α) {k : α} (w : β) (B : List (α × β))
    (h : k ≠ x) : eraseKey x ((k, w) :: B) = (k, w) :: eraseKey x B := by
  simp [eraseKey, h]

/-- The spec-modelled deletion pass removes exactly the probed key from the
in-order contents of a tree with sorted contents. -/
theorem eraseKey_cons_head (p : α × β) (B : List (α × β)) :
    eraseKey p.1 (p :: B) = eraseKey p.1 B := by
  simp [eraseKey]

theorem Link.inorder_del (t : Link α β) (x : α)
    (h : sortedPairs t.inorder) :
    (Link.del x t).inorder = eraseKey x t.inorder := by
  induction t generalizing x with
  | Empty => rfl
  | node k v l r c ihl ihr =>
    rw [Link.inorder] at h
    rcases sortedPairs_node_split h with ⟨sl, sr, hA, hB⟩
    rw [Link.inorder, eraseKey_append]
    cases hc : cmp3 x k
    · have hx := cmp3_eq_lt.mp hc
      have hkeep : eraseKey x ((k, v) :: r.inorder) = (k, v) :: r.inorder := by
        refine eraseKey_of_ne x (fun p hp => ?_)
        rcases List.mem_cons.mp hp with rfl | hp
        · exact ne_of_gt hx
        · exact ne_of_gt (lt_trans hx (hB p hp))
      simp only [Link.del, hc]
      rw [hkeep, Color.inorder_rotate, ihl x sl]
    · have hx := cmp3_eq_eq.mp hc
      subst hx
      have hAkeep : eraseKey x l.inorder = l.inorder :=
        eraseKey_of_ne x (fun p hp => ne_of_lt (hA p hp))
      have hBkeep : eraseKey x r.inorder = r.inorder :=
        eraseKey_of_ne x (fun p hp => ne_of_gt (hB p hp))
      rw [hAkeep, eraseKey_cons_self, hBkeep]
      cases l with
      | Empty =>
        simp only [Link.del, hc]
        rw [Link.spliceChild_inorder]
        simp [Link.inorder]
      | node lk lv ll lr lc =>
        cases r with
        | Empty =>
          simp only [Link.del, hc]
          rw [Link.spliceChild_inorder]
          simp [Link.inorder]
        | node rk rv rl rr rc =>
          have hstep : Link.del x (Link.node x v (Link.node lk lv ll lr lc)
              (Link.node rk rv rl rr rc) c) =
            Color.rotate c ((Link.node rk rv rl rr rc).minPairD (x, v)).1
              ((Link.node rk rv rl rr rc).minPairD (x, v)).2
              (Link.node lk lv ll lr lc)
              (Link.del ((Link.node rk rv rl rr rc).minPairD (x, v)).1
                (Link.node rk rv rl rr rc)) := by
            simp only [Link.del, hc]
          rw [hstep, Color.inorder_rotate,
            ihr ((Link.node rk rv rl rr rc).minPairD (x, v)).1 sr]
          obtain ⟨rest, hrest⟩ :=
            Link.inorder_minPairD (Link.node rk rv rl rr rc) (x, v) (by simp)
          have hmins : ∀ p ∈ rest,
              ((Link.node rk rv rl rr rc).minPairD (x, v)).1 < p.1 := by
            have hs := sr
            rw [hrest] at hs
            exact fun p hp => (List.pairwise_cons.mp hs).1 p hp
          rw [hrest, eraseKey_cons_head,
            eraseKey_of_ne _ (fun p hp => ne_of_gt (hmins p hp))]
    · have hx := cmp3_eq_gt.mp hc
      have hAkeep : eraseKey x l.inorder = l.inorder :=
        eraseKey_of_ne x (fun p hp => ne_of_lt (lt_trans (hA p hp) hx))
      simp only [Link.del, hc]
      rw [Color.inorder_rotate, ihr x sr, hAkeep,
        eraseKey_cons_ne x v r.inorder (ne_of_lt hx)]

/-! ## Claim theorems -/

/-- C1: the claim says every tree built by inserts satisfies the red-black
invariants, in particular that no Red node has a Red child.  The code
violates this at once: a new leaf is Red, `balance` never rearranges at a
Red node, and `Tree::insert` never blackens the root, so inserting key 1
and then key 2 into the empty tree yields a Red root whose right child is
Red. -/
theorem insert_violates_red_red :
    (Tree.from_iter [((1 : ℤ), (0 : ℤ)), (2, 0)]).root =
      Link.node 1 0 .Empty (.node 2 0 .Empty .Empty .Red) .Red ∧
    (Tree.from_iter [((1 : ℤ), (0 : ℤ)), (2, 0)]).root.noRedRedB = false := by
  decide

/-- C2: the claim bounds the height of an n-key insert-built tree by
2·⌈log₂(n+1)⌉.  Since insert never rebalances (all nodes stay Red), the
seven ascending inserts 1..7 build a chain: size 7, height 7, while the
claimed bound is 2·⌈log₂ 8⌉ = 6. -/
theorem insert_violates_height_bound :
    (Tree.from_iter
      [((1 : ℤ), (0 : ℤ)), (2, 0), (3, 0), (4, 0), (5, 0), (6, 0),
        (7, 0)]).root.size = 7 ∧
    (Tree.from_iter
      [((1 : ℤ), (0 : ℤ)), (2, 0), (3, 0), (4, 0), (5, 0), (6, 0),
        (7, 0)]).root.height = 7 ∧
    Nat.clog 2 (7 + 1) = 3 ∧
    ¬((Tree.from_iter
        [((1 : ℤ), (0 : ℤ)), (2, 0), (3, 0), (4, 0), (5, 0), (6, 0),
          (7, 0)]).root.height ≤
      2 * Nat.clog 2 ((Tree.from_iter
        [((1 : ℤ), (0 : ℤ)), (2, 0), (3, 0), (4, 0), (5, 0), (6, 0),
          (7, 0)]).root.size + 1)) := by
  have hclog : Nat.clog 2 8 = 3 := by
    have h := Nat.clog_pow 2 3 (by norm_num)
    norm_num at h
    exact h
  have hsize : (Tree.from_iter
      [((1 : ℤ), (0 : ℤ)), (2, 0), (3, 0), (4, 0), (5, 0), (6, 0),
        (7, 0)]).root.size = 7 := by decide
  have hheight : (Tree.from_iter
      [((1 : ℤ), (0 : ℤ)), (2, 0), (3, 0), (4, 0), (5, 0), (6, 0),
        (7, 0)]).root.height = 7 := by decide
  refine ⟨hsize, hheight, hclog, ?_⟩
  rw [hsize, hheight]
  show ¬(7 ≤ 2 * Nat.clog 2 8)
  rw [hclog]
  decide

/-- C5: for any sequence of inserted pairs, iterating the resulting tree
yields keys in strictly ascending order with no duplicates. -/
theorem iter_keys_strictly_ascending (ps : List (α × β)) :
    List.Pairwise (fun a b => a < b)
      (((Tree.from_iter ps).iterList).map Prod.fst) := by
  rw [Tree.iterList_eq_inorder]
  exact List.Pairwise.map Prod.fst (fun a b h => h) (from_iter_inorder ps).1

/-- C10: `Iter::next` is total; the branch that pops the explicit stack is
only reached with a non-empty stack, so the `unwrap` (modelled as the
`Except.error` outcome) can never fire, for every iterator state. -/
theorem iter_next_never_panics (it : Iter α β) :
    ∃ r : Option ((α × β) × Iter α β), Iter.next it = .ok r := by
  obtain ⟨cur, st⟩ := it
  show ∃ r, Iter.loopNext cur st = .ok r
  induction cur generalizing st with
  | Empty =>
    cases st with
    | nil => exact ⟨none, rfl⟩
    | cons f rest => exact ⟨some ((f.key, f.value), ⟨f.right, rest⟩), rfl⟩
  | node k v l r c ihl ihr => exact ihl (⟨k, v, l, r, c⟩ :: st)

/-- Witness for C6: a Black root with two Red leaves; inserting at the
present key 1 replaces only that value. -/
theorem insert_present_updates_witness :
    (Link.node (2 : ℤ) (0 : ℤ) (.node 1 0 .Empty .Empty .Red)
      (.node 3 0 .Empty .Empty .Red) .Black).balanceInert = true ∧
    ((Link.node (2 : ℤ) (0 : ℤ) (.node 1 0 .Empty .Empty .Red)
      (.node 3 0 .Empty .Empty .Red) .Black).get_by
        (fun node_key => cmp3 1 node_key)).isSome = true ∧
    (Link.node (2 : ℤ) (0 : ℤ) (.node 1 0 .Empty .Empty .Red)
      (.node 3 0 .Empty .Empty .Red) .Black).insert 1 99 =
    (Link.node (2 : ℤ) (0 : ℤ) (.node 1 0 .Empty .Empty .Red)
      (.node 3 0 .Empty .Empty .Red) .Black).updateValue 1 99 :=
  ⟨by decide, by decide,
    Link.insert_present_updates _ 1 99 (by decide) (by decide)⟩

/-- C4 (counterexample): the claim asserts that any two orderings of a
multiset of pairs produce the same iteration sequence.  The two orderings
of the multiset containing (1, 0) and (1, 1) disagree on which value was
inserted last for key 1, and the iteration outputs differ. -/
theorem from_iter_order_dependent :
    ([((1 : ℤ), (0 : ℤ)), (1, 1)]).Perm [((1 : ℤ), (1 : ℤ)), (1, 0)] ∧
    (Tree.from_iter [((1 : ℤ), (0 : ℤ)), (1, 1)]).iterList ≠
      (Tree.from_iter [((1 : ℤ), (1 : ℤ)), (1, 0)]).iterList := by
  constructor
  · exact List.Perm.swap _ _ _
  · decide

/-- C4 (amended): iterating an insert-built tree yields exactly the
distinct inserted keys in strictly ascending order, each paired with the
value of the last insertion for that key in that sequence; hence two
insertion sequences with the same last binding per key produce identical
output, and the concrete example holds. -/
theorem from_iter_canonical :
    (∀ (γ : Type) [LinearOrder γ] (δ : Type) (ps : List (γ × δ)),
      sortedPairs (Tree.from_iter ps).iterList ∧
      ∀ p : γ × δ, p ∈ (Tree.from_iter ps).iterList ↔
        ps.reverse.find? (fun q => decide (q.1 = p.1)) = some p) ∧
    (∀ (γ : Type) [LinearOrder γ] (δ : Type) (ps qs : List (γ × δ)),
      (∀ k, ps.reverse.find? (fun q => decide (q.1 = k)) =
        qs.reverse.find? (fun q => decide (q.1 = k))) →
      (Tree.from_iter ps).iterList = (Tree.from_iter qs).iterList) ∧
    (Tree.from_iter
      [((3 : ℤ), "c"), (1, "a"), (2, "b"), (1, "z")]).iterList =
      [(1, "z"), (2, "b"), (3, "c")] := by
  have main : ∀ (γ : Type) [LinearOrder γ] (δ : Type) (ps : List (γ × δ)),
      sortedPairs (Tree.from_iter ps).iterList ∧
      ∀ p : γ × δ, p ∈ (Tree.from_iter ps).iterList ↔
        ps.reverse.find? (fun q => decide (q.1 = p.1)) = some p := by
    intro γ _ δ ps
    rw [Tree.iterList_eq_inorder]
    refine ⟨(from_iter_inorder ps).1, fun p => ?_⟩
    rw [(from_iter_inorder ps).2]
    exact mem_insListFold ps p
  refine ⟨main, ?_, ?_⟩
  · intro γ _ δ ps qs hsame
    refine sortedPairs_ext (main γ δ ps).1 (main γ δ qs).1 (fun p => ?_)
    rw [(main γ δ ps).2 p, (main γ δ qs).2 p, hsame p.1]
  · decide

/-- Witness for C4 (amended): two concrete sequences with the same last
binding per key iterate identically. -/
theorem from_iter_canonical_witness :
    (∀ k : ℤ, ([((1 : ℤ), (7 : ℤ)), (2, 8)]).reverse.find?
        (fun q => decide (q.1 = k)) =
      ([((2 : ℤ), (8 : ℤ)), (1, 7)]).reverse.find?
        (fun q => decide (q.1 = k))) ∧
    (Tree.from_iter [((1 : ℤ), (7 : ℤ)), (2, 8)]).iterList =
      (Tree.from_iter [((2 : ℤ), (8 : ℤ)), (1, 7)]).iterList := by
  have hsame : ∀ k : ℤ, ([((1 : ℤ), (7 : ℤ)), (2, 8)]).reverse.find?
      (fun q => decide (q.1 = k)) =
      ([((2 : ℤ), (8 : ℤ)), (1, 7)]).reverse.find?
        (fun q => decide (q.1 = k)) := by
    intro k
    by_cases h1 : (1 : ℤ) = k
    · subst h1
      decide
    · by_cases h2 : (2 : ℤ) = k
      · subst h2
        decide
      · simp [List.find?, h1, h2]
  exact ⟨hsame, from_iter_canonical.2.1 ℤ ℤ _ _ hsame⟩

/-- Keys of a sorted association list determine the pair. -/
theorem sortedPairs_key_unique {L : List (α × β)} (h : sortedPairs L)
    {p q : α × β} (hp : p ∈ L) (hq : q ∈ L) (hk : p.1 = q.1) : p = q := by
  induction L with
  | nil => cases hp
  | cons a L ih =>
    rcases List.pairwise_cons.mp h with ⟨ha, hs⟩
    rcases List.mem_cons.mp hp with rfl | hp2
    · rcases List.mem_cons.mp hq with rfl | hq2
      · rfl
      · exact absurd (ha q hq2) (by rw [hk]; exact lt_irrefl q.1)
    · rcases List.mem_cons.mp hq with rfl | hq2
      · exact absurd (ha p hp2) (by rw [hk]; exact lt_irrefl q.1)
      · exact ih hs hp2 hq2

/-- C8: `get` is a total function; on a tree with sorted contents it
returns exactly what linear search of the in-order contents returns: the
stored value when some key compares Equal to the probe, and the explicit
not-found result `none` when the descent reaches `Empty`. -/
theorem get_spec (t : Tree α β) (h : sortedPairs t.root.inorder) (x : α) :
    Tree.get t x =
      (t.root.inorder.find? (fun p => decide (p.1 = x))).map Prod.snd ∧
    (∀ v, Tree.get t x = some v ↔ (x, v) ∈ t.root.inorder) ∧
    (Tree.get t x = none ↔ x ∉ t.root.inorder.map Prod.fst) := by
  have hg : Tree.get t x =
      (t.root.inorder.find? (fun p => decide (p.1 = x))).map Prod.snd := by
    rw [Tree.get, Tree.get_by, Link.get_by_eq_find _ _ h]
  refine ⟨hg, fun v => ?_, ?_⟩
  · rw [hg]
    cases hfind : t.root.inorder.find? (fun p => decide (p.1 = x)) with
    | none =>
      constructor
      · intro hv
        exact absurd hv (by simp)
      · intro hmem
        rw [List.find?_eq_none] at hfind
        have := hfind (x, v) hmem
        simp at this
    | some q =>
      have hqmem := List.mem_of_find?_eq_some hfind
      have hqx : q.1 = x := by simpa using List.find?_some hfind
      constructor
      · intro hv
        have hv2 : q.2 = v := by simpa using hv
        have hxq : (x, v) = q := by
          rw [← hqx, ← hv2]
        rw [hxq]
        exact hqmem
      · intro hmem
        have hxq : (x, v) = q :=
          sortedPairs_key_unique h hmem hqmem (by simp [hqx])
        rw [← hxq]
        rfl
  · rw [hg]
    cases hfind : t.root.inorder.find? (fun p => decide (p.1 = x)) with
    | none =>
      constructor
      · intro _ hxmem
        rcases List.mem_map.mp hxmem with ⟨p, hpmem, hpx⟩
        rw [List.find?_eq_none] at hfind
        have := hfind p hpmem
        simp [hpx] at this
      · intro _
        rfl
    | some q =>
      have hqmem := List.mem_of_find?_eq_some hfind
      have hqx : q.1 = x := by simpa using List.find?_some hfind
      constructor
      · intro hnone
        exact absurd hnone (by simp)
      · intro hxnot
        exact absurd (List.mem_map.mpr ⟨q, hqmem, hqx⟩) hxnot

/-- Witness for C8 at a concrete two-key tree, probing the present key 2. -/
theorem get_spec_witness :
    sortedPairs (Tree.from_iter
      [((1 : ℤ), (10 : ℤ)), (2, 20)]).root.inorder ∧
    (Tree.get (Tree.from_iter [((1 : ℤ), (10 : ℤ)), (2, 20)]) 2 =
      ((Tree.from_iter [((1 : ℤ), (10 : ℤ)), (2, 20)]).root.inorder.find?
        (fun p => decide (p.1 = 2))).map Prod.snd ∧
    (∀ v, Tree.get (Tree.from_iter [((1 : ℤ), (10 : ℤ)), (2, 20)]) 2 =
        some v ↔
      ((2 : ℤ), v) ∈
        (Tree.from_iter [((1 : ℤ), (10 : ℤ)), (2, 20)]).root.inorder) ∧
    (Tree.get (Tree.from_iter [((1 : ℤ), (10 : ℤ)), (2, 20)]) 2 = none ↔
      (2 : ℤ) ∉ (Tree.from_iter
        [((1 : ℤ), (10 : ℤ)), (2, 20)]).root.inorder.map Prod.fst)) :=
  ⟨by decide, get_spec _ (by decide) 2⟩

/-- C9: inserting key `x` leaves the binding of every other key `k'` (with
`cmp3 k' x` not Equal) unchanged under `get`. -/
theorem get_insert_frame (t : Tree α β) (h : sortedPairs t.root.inorder)
    (x xp : α) (v : β) (hne : cmp3 xp x ≠ .eq) :
    Tree.get (Tree.insert t x v) xp = Tree.get t xp := by
  have hnep : xp ≠ x := fun hc => hne (cmp3_eq_eq.mpr hc)
  have hins : (Tree.insert t x v).root.inorder = insList x v t.root.inorder :=
    Link.inorder_insert t.root x v h
  have hsorted2 : sortedPairs (Tree.insert t x v).root.inorder := by
    rw [hins]
    exact sortedPairs_insList h
  rw [Tree.get, Tree.get, Tree.get_by, Tree.get_by,
    Link.get_by_eq_find _ _ hsorted2, Link.get_by_eq_find _ _ h, hins,
    find?_insList x xp v _ hnep]

/-- Witness for C9: after inserting key 2 into a one-key tree, key 1 still
answers as before. -/
theorem get_insert_frame_witness :
    sortedPairs (Tree.from_iter [((1 : ℤ), (10 : ℤ))]).root.inorder ∧
    cmp3 (1 : ℤ) 2 ≠ .eq ∧
    Tree.get (Tree.insert (Tree.from_iter [((1 : ℤ), (10 : ℤ))]) 2 20) 1 =
      Tree.get (Tree.from_iter [((1 : ℤ), (10 : ℤ))]) 1 :=
  ⟨by decide, by decide,
    get_insert_frame _ (by decide) 2 1 20 (by decide)⟩

theorem map_fst_eraseKey (x : α) (L : List (α × β)) :
    (eraseKey x L).map Prod.fst =
      (L.map Prod.fst).filter (fun k => decide (k ≠ x)) := by
  induction L with
  | nil => rfl
  | cons p L ih =>
    simp only [eraseKey] at ih ⊢
    simp only [ne_eq, decide_not] at ih ⊢
    by_cases hp : p.1 = x <;> simp [List.filter_cons, hp, ih]

theorem Tree.delete_root_inorder (t : Tree α β) (x : α) :
    (Tree.delete t x).root.inorder = (Link.del x t.root).inorder := by
  cases hres : Link.del x t.root with
  | Empty => simp [Tree.delete, hres]
  | node k v l r c => cases c <;> simp [Tree.delete, hres, Link.inorder]

/-- C3: the spec-modelled `delete` removes exactly the probed key: the
iteration of the result is the iteration of the input with that key's
binding filtered out (so the key set is the input's minus the key), and
deleting an absent key returns a tree that iterates identically. -/
theorem delete_removes_key (t : Tree α β) (h : sortedPairs t.root.inorder)
    (x : α) :
    (Tree.delete t x).iterList = eraseKey x t.iterList ∧
    ((Tree.delete t x).iterList).map Prod.fst =
      (t.iterList.map Prod.fst).filter (fun k => decide (k ≠ x)) ∧
    (x ∉ t.iterList.map Prod.fst →
      (Tree.delete t x).iterList = t.iterList) := by
  have hd : (Tree.delete t x).iterList = eraseKey x t.iterList := by
    rw [Tree.iterList_eq_inorder, Tree.iterList_eq_inorder,
      Tree.delete_root_inorder, Link.inorder_del t.root x h]
  refine ⟨hd, ?_, ?_⟩
  · rw [hd, map_fst_eraseKey]
  · intro habs
    rw [hd]
    rw [Tree.iterList_eq_inorder] at habs ⊢
    refine eraseKey_of_ne x (fun p hp hpx => ?_)
    exact habs (List.mem_map.mpr ⟨p, hp, hpx⟩)

/-- Witness for C3: deleting the present key 2 from a three-key tree, at a
concrete input. -/
theorem delete_removes_key_witness :
    sortedPairs (Tree.from_iter
      [((1 : ℤ), (10 : ℤ)), (2, 20), (3, 30)]).root.inorder ∧
    ((Tree.delete (Tree.from_iter
        [((1 : ℤ), (10 : ℤ)), (2, 20), (3, 30)]) 2).iterList =
      eraseKey 2 (Tree.from_iter
        [((1 : ℤ), (10 : ℤ)), (2, 20), (3, 30)]).iterList ∧
    ((Tree.delete (Tree.from_iter
        [((1 : ℤ), (10 : ℤ)), (2, 20), (3, 30)]) 2).iterList).map Prod.fst =
      ((Tree.from_iter
        [((1 : ℤ), (10 : ℤ)), (2, 20), (3, 30)]).iterList.map
          Prod.fst).filter (fun k => decide (k ≠ 2)) ∧
    ((2 : ℤ) ∉ (Tree.from_iter
        [((1 : ℤ), (10 : ℤ)), (2, 20), (3, 30)]).iterList.map Prod.fst →
      (Tree.delete (Tree.from_iter
        [((1 : ℤ), (10 : ℤ)), (2, 20), (3, 30)]) 2).iterList =
        (Tree.from_iter
          [((1 : ℤ), (10 : ℤ)), (2, 20), (3, 30)]).iterList)) :=
  ⟨by decide, delete_removes_key _ (by decide) 2⟩

end Arbtree
